/- Verification of the core logic of the LovPdf repository against its specification:
   the page-range parser (parsePageRanges in the PDF-manipulation service),
   the image page-fit computation inlined in convertImagesToPdf, and the
   page-number format substitution in addPageNumbersToPdf.

   Modelling conventions (shallow embedding):
   - JavaScript strings are List Char.
   - JavaScript Number values carrying page counts and page numbers are ℤ
     (all relevant values are integral); the page-fit arithmetic is over ℚ
     (exact arithmetic; every concrete instance checked here is also exact
     in IEEE doubles, and no division by zero occurs in any proved case).
   - Thrown exceptions become an Except error type distinguishing the two
     throw sites of parsePageRanges.
   - The JS Set of page indices is a duplicate-free List ℤ in insertion
     order (setAdd), matching JS Set iteration semantics; the final
     Array.from(set).sort((a,b) => a-b) is List.insertionSort (· ≤ ·). -/
import Mathlib

namespace LovPdf

/-- Whitespace predicate used by String.prototype.trim and by parseInt when
skipping leading whitespace: space and the control characters tab through
carriage return (codes 9-13).  (JS also strips some exotic Unicode spaces,
which never occur in the inputs considered here.) -/
def isWS (c : Char) : Bool :=
  decide (c.toNat = 32 ∨ (9 ≤ c.toNat ∧ c.toNat ≤ 13))

/-- Model of String.prototype.trim: drop whitespace from both ends. -/
def trim (s : List Char) : List Char :=
  ((s.dropWhile isWS).reverse.dropWhile isWS).reverse

/-- Model of String.prototype.split(sep) for a single-character separator:
splits at every occurrence, keeping empty pieces, and maps the empty string
to one empty piece (JS: "".split(",") = [""]). -/
def splitOnChar (sep : Char) : List Char → List (List Char)
  | [] => [[]]
  | c :: rest =>
    if c = sep then [] :: splitOnChar sep rest
    else
      match splitOnChar sep rest with
      | s :: ss => (c :: s) :: ss
      | [] => [[c]]

/-- ASCII decimal digit test (the digits accepted by parseInt at radix 10). -/
def isDigitCh (c : Char) : Bool :=
  decide (48 ≤ c.toNat ∧ c.toNat ≤ 57)

/-- Numeric value of a list of decimal digit characters, most significant
first, as accumulated by parseInt. -/
def digitsVal (ds : List Char) : ℕ :=
  ds.foldl (fun acc c => 10 * acc + (c.toNat - 48)) 0

/-- Digit run at the front of the remaining input: parseInt consumes leading
decimal digits and ignores everything after them; it yields NaN (here: none)
when there is no leading digit. -/
def parseDigits (r : List Char) : Option ℕ :=
  let ds := r.takeWhile isDigitCh
  if ds.isEmpty then none else some (digitsVal ds)

/-- Model of the JavaScript parseInt(s, 10) calls in parsePageRanges:
skip leading whitespace, read an optional sign, then leading base-10 digits;
NaN (none) when no digit follows; trailing characters are ignored. -/
def parseInt (s : List Char) : Option ℤ :=
  match s.dropWhile isWS with
  | '+' :: r => (parseDigits r).map (fun n => (n : ℤ))
  | '-' :: r => (parseDigits r).map (fun n => -(n : ℤ))
  | t => (parseDigits t).map (fun n => (n : ℤ))

/-- The two throw sites of parsePageRanges, each carrying the trimmed
segment interpolated into the thrown message. -/
inductive RangeError where
  | invalidRange (seg : List Char)
  | invalidPageNumber (seg : List Char)
deriving DecidableEq, Repr

/-- Model of Set.prototype.add on a JS Set of numbers: append the element
unless already present (JS sets keep insertion order and are duplicate-free). -/
def setAdd (s : List ℤ) (i : ℤ) : List ℤ :=
  if i ∈ s then s else s ++ [i]

/-- The inclusive integer range [lo, hi] traversed by the for-loop
"for (let i = start; i <= end; i++)". -/
def intRange (lo hi : ℤ) : List ℤ :=
  (List.range (hi + 1 - lo).toNat).map (fun (k : ℕ) => lo + (k : ℤ))

/-- Body of the "for (const part of parts)" loop of parsePageRanges: trim the
segment; a segment containing a dash is split on dashes, its first two pieces
parsed as start and end, rejected (InvalidRange) when either is NaN, start < 1,
end < start or start > maxPage, otherwise end is capped at maxPage and every
i - 1 for i in [start, end] is added; a dashless segment is parsed as a single
integer, rejected (InvalidPageNumber) when NaN or outside [1, maxPage],
otherwise value - 1 is added. -/
def processPart (maxPage : ℤ) (acc : List ℤ) (part : List Char) :
    Except RangeError (List ℤ) :=
  let t := trim part
  if '-' ∈ t then
    match splitOnChar '-' t with
    | s1 :: s2 :: _ =>
      match parseInt s1, parseInt s2 with
      | some st, some en =>
        if st < 1 ∨ en < st ∨ maxPage < st then .error (.invalidRange t)
        else .ok ((intRange st (min en maxPage)).foldl (fun s i => setAdd s (i - 1)) acc)
      | _, _ => .error (.invalidRange t)
    | _ => .error (.invalidRange t)
  else
    match parseInt t with
    | some p =>
      if p < 1 ∨ maxPage < p then .error (.invalidPageNumber t)
      else .ok (setAdd acc (p - 1))
    | none => .error (.invalidPageNumber t)

/-- The loop of parsePageRanges over all comma-separated parts; a throw in
any iteration aborts the whole parse with that error. -/
def processParts (maxPage : ℤ) (acc : List ℤ) : List (List Char) →
    Except RangeError (List ℤ)
  | [] => .ok acc
  | part :: rest =>
    match processPart maxPage acc part with
    | .ok acc2 => processParts maxPage acc2 rest
    | .error e => .error e

/-- Model of parsePageRanges(rangeStr, maxPage): a blank string yields [],
otherwise the comma-split segments are processed in order into a set of
zero-based indices, returned numerically sorted. -/
def parsePageRanges (rangeStr : List Char) (maxPage : ℤ) :
    Except RangeError (List ℤ) :=
  if trim rangeStr = [] then .ok []
  else
    match processParts maxPage [] (splitOnChar ',' rangeStr) with
    | .ok s => .ok (List.insertionSort (· ≤ ·) s)
    | .error e => .error e

instance : DecidableEq (Except RangeError (List ℤ)) := fun a b =>
  match a, b with
  | .ok x, .ok y => decidable_of_iff (x = y) (by simp)
  | .error x, .error y => decidable_of_iff (x = y) (by simp)
  | .ok _, .error _ => isFalse (by simp)
  | .error _, .ok _ => isFalse (by simp)

example : parsePageRanges ("1-3, 5".data) 10 = .ok [0, 1, 2, 4] := by decide

example : parsePageRanges ("1-100".data) 10 = .ok [0, 1, 2, 3, 4, 5, 6, 7, 8, 9] := by
  decide

example : parsePageRanges ("101".data) 10 = .error (.invalidPageNumber ("101".data)) := by
  decide

example : parsePageRanges ("1,1,2".data) 5 = .ok [0, 1] := by decide

example : parsePageRanges ("1,,2".data) 5 = .error (.invalidPageNumber []) := by decide

example : parsePageRanges ("3-1".data) 10 = .error (.invalidRange ("3-1".data)) := by
  decide

example : parsePageRanges ("".data) 7 = .ok [] := by decide

/-- The draw rectangle {x, y, width, height} handed to page.drawImage,
in page points. -/
structure PageFitRect where
  x : ℚ
  y : ℚ
  width : ℚ
  height : ℚ
deriving DecidableEq, Repr

/-- The aspect-ratio-preserving "contain" fit computed inside
convertImagesToPdf (types.ts lines 158-176): inset the page by the margin on
all four sides, give the image the full available width when it is relatively
wider than the available area (deriving the height from its aspect ratio) and
the full available height otherwise, then center the rectangle.  The source
fixes margin to the constant 20 (see imagePageMargin below); it is a parameter
here because the computeFit contract of the specification exposes it.  The source
performs no margin check of any kind: the computation is total. -/
def computeFit (imageWidth imageHeight pageWidth pageHeight margin : ℚ) :
    PageFitRect :=
  let availableWidth := pageWidth - 2 * margin
  let availableHeight := pageHeight - 2 * margin
  let pageAspectRatio := availableWidth / availableHeight
  let imageAspectRatio := imageWidth / imageHeight
  if imageAspectRatio > pageAspectRatio then
    let drawWidth := availableWidth
    let drawHeight := drawWidth / imageAspectRatio
    { x := margin + (availableWidth - drawWidth) / 2
      y := margin + (availableHeight - drawHeight) / 2
      width := drawWidth, height := drawHeight }
  else
    let drawHeight := availableHeight
    let drawWidth := drawHeight * imageAspectRatio
    { x := margin + (availableWidth - drawWidth) / 2
      y := margin + (availableHeight - drawHeight) / 2
      width := drawWidth, height := drawHeight }

/-- The margin constant hard-coded by convertImagesToPdf. -/
def imagePageMargin : ℚ := 20

/-- The fit rectangle exactly as convertImagesToPdf computes it for one image
on one page: computeFit at the fixed source margin of 20 points. -/
def convertImagesToPdfRect (imageWidth imageHeight pageWidth pageHeight : ℚ) :
    PageFitRect :=
  computeFit imageWidth imageHeight pageWidth pageHeight imagePageMargin

example : computeFit 200 100 600 800 20 =
    { x := 20, y := 260, width := 560, height := 280 } := by
  rw [computeFit]; rw [if_pos (by norm_num)]; norm_num

example : computeFit 200 100 600 2000 300 =
    { x := 300, y := 1000, width := 0, height := 0 } := by
  rw [computeFit]; rw [if_pos (by norm_num)]; norm_num

/-- Digit character for a value below ten, as produced by
Number.prototype.toString on each decimal digit. -/
def digitChar : ℕ → Char
  | 0 => '0' | 1 => '1' | 2 => '2' | 3 => '3' | 4 => '4'
  | 5 => '5' | 6 => '6' | 7 => '7' | 8 => '8' | _ => '9'

/-- Fuel-driven digit accumulator behind natToChars; the fuel argument only
bounds the recursion depth (natToChars supplies n itself, which is ample since
the value shrinks by a factor of ten per step). -/
def natToCharsAux : ℕ → ℕ → List Char → List Char
  | 0, n, acc => digitChar n :: acc
  | fuel + 1, n, acc =>
    if n < 10 then digitChar n :: acc
    else natToCharsAux fuel (n / 10) (digitChar (n % 10) :: acc)

/-- Model of (n).toString() for the non-negative integers substituted by
addPageNumbersToPdf: standard decimal notation, most significant digit
first. -/
def natToChars (n : ℕ) : List Char := natToCharsAux n n []

/-- Model of String.prototype.replace(pat, rep) for the two-character search
strings used in addPageNumbersToPdf: replace only the first occurrence of the
pair x, y and leave the string unchanged when the pair does not occur.  (The
replacement strings at both call sites are bare digit strings, so the dollar
patterns of the JS replacement syntax can never trigger.) -/
def replace2 (x y : Char) (rep : List Char) : List Char → List Char
  | a :: b :: t =>
    if a = x ∧ b = y then rep ++ t
    else a :: replace2 x y rep (b :: t)
  | s => s

/-- Whether the two-character pattern x, y occurs somewhere in the string. -/
def hasPair (x y : Char) : List Char → Bool
  | a :: b :: t => decide (a = x ∧ b = y) || hasPair x y (b :: t)
  | _ => false

/-- The text drawn on page i (zero-based) of a totalPages-page document by
addPageNumbersToPdf (part_000 lines 201-203): the format with its first
occurrence of the pair percent-p replaced by the 1-based page number and
then the first occurrence of percent-t replaced by the total page count. -/
def pageNumStr (format : List Char) (i total : ℕ) : List Char :=
  replace2 '%' 't' (natToChars total)
    (replace2 '%' 'p' (natToChars (i + 1)) format)

example : pageNumStr ("%p / %t".data) 0 12 = ("1 / 12".data) := by decide

example : pageNumStr ("%p/%t of %p%t".data) 2 10 = ("3/10 of %p%t".data) := by decide

/- Lemmas about the set model and the loop of parsePageRanges. -/

lemma mem_setAdd {s : List ℤ} {i j : ℤ} : j ∈ setAdd s i ↔ j ∈ s ∨ j = i := by
  by_cases h : i ∈ s
  · simp only [setAdd, if_pos h]
    constructor
    · exact Or.inl
    · rintro (hj | rfl)
      · exact hj
      · exact h
  · simp [setAdd, if_neg h]

lemma nodup_setAdd {s : List ℤ} {i : ℤ} (h : s.Nodup) : (setAdd s i).Nodup := by
  by_cases hi : i ∈ s
  · simpa [setAdd, if_pos hi] using h
  · simp [setAdd, if_neg hi, List.nodup_append, h, hi]

lemma mem_foldl_setAdd (l : List ℤ) : ∀ (acc : List ℤ) (j : ℤ),
    (j ∈ l.foldl (fun s i => setAdd s (i - 1)) acc ↔ j ∈ acc ∨ ∃ i ∈ l, j = i - 1) := by
  induction l with
  | nil => simp
  | cons a l ih =>
    intro acc j
    simp only [List.foldl_cons]
    rw [ih, mem_setAdd]
    simp only [List.mem_cons]
    constructor
    · rintro ((hj | rfl) | ⟨i, hi, rfl⟩)
      · exact Or.inl hj
      · exact Or.inr ⟨a, Or.inl rfl, rfl⟩
      · exact Or.inr ⟨i, Or.inr hi, rfl⟩
    · rintro (hj | ⟨i, rfl | hi, rfl⟩)
      · exact Or.inl (Or.inl hj)
      · exact Or.inl (Or.inr rfl)
      · exact Or.inr ⟨i, hi, rfl⟩

lemma nodup_foldl_setAdd (l : List ℤ) : ∀ acc, acc.Nodup →
    (l.foldl (fun s i => setAdd s (i - 1)) acc).Nodup := by
  induction l with
  | nil => intro acc h; exact h
  | cons a l ih => intro acc h; exact ih _ (nodup_setAdd h)

lemma mem_intRange {lo hi i : ℤ} : i ∈ intRange lo hi ↔ lo ≤ i ∧ i ≤ hi := by
  simp only [intRange, List.mem_map, List.mem_range]
  constructor
  · rintro ⟨k, hk, rfl⟩
    omega
  · rintro ⟨h1, h2⟩
    exact ⟨(i - lo).toNat, by omega, by omega⟩

lemma processPart_ok_mem {maxPage : ℤ} {acc : List ℤ} {part : List Char}
    {s2 : List ℤ} (h : processPart maxPage acc part = .ok s2) :
    ∀ j ∈ s2, j ∈ acc ∨ (0 ≤ j ∧ j < maxPage) := by
  intro j hj
  simp only [processPart] at h
  split at h
  · split at h
    · split at h
      · split at h
        · exact absurd h (by simp)
        · rename_i st en _ hcond
          injection h with h
          subst h
          rcases (mem_foldl_setAdd _ _ _).mp hj with hj2 | ⟨i, hi, rfl⟩
          · exact Or.inl hj2
          · right
            rcases mem_intRange.mp hi with ⟨h1, h2⟩
            push_neg at hcond
            omega
      · exact absurd h (by simp)
    · exact absurd h (by simp)
  · split at h
    · rename_i p _
      split at h
      · exact absurd h (by simp)
      · rename_i hcond
        injection h with h
        subst h
        rcases mem_setAdd.mp hj with hj2 | rfl
        · exact Or.inl hj2
        · right; push_neg at hcond; omega
    · exact absurd h (by simp)

lemma processPart_ok_nodup {maxPage : ℤ} {acc : List ℤ} {part : List Char}
    {s2 : List ℤ} (h : processPart maxPage acc part = .ok s2)
    (hacc : acc.Nodup) : s2.Nodup := by
  simp only [processPart] at h
  split at h
  · split at h
    · split at h
      · split at h
        · exact absurd h (by simp)
        · injection h with h
          subst h
          exact nodup_foldl_setAdd _ _ hacc
      · exact absurd h (by simp)
    · exact absurd h (by simp)
  · split at h
    · split at h
      · exact absurd h (by simp)
      · injection h with h
        subst h
        exact nodup_setAdd hacc
    · exact absurd h (by simp)

lemma processPart_of_trim_nil {maxPage : ℤ} {acc : List ℤ} {part : List Char}
    (h : trim part = []) :
    processPart maxPage acc part = .error (.invalidPageNumber []) := by
  simp only [processPart, h]
  rfl

lemma processParts_ok_mem {maxPage : ℤ} : ∀ (parts : List (List Char))
    (acc s2 : List ℤ), processParts maxPage acc parts = .ok s2 →
    ∀ j ∈ s2, j ∈ acc ∨ (0 ≤ j ∧ j < maxPage) := by
  intro parts
  induction parts with
  | nil =>
    intro acc s2 h j hj
    simp only [processParts] at h
    injection h with h
    subst h
    exact Or.inl hj
  | cons p ps ih =>
    intro acc s2 h j hj
    simp only [processParts] at h
    split at h
    · rename_i acc2 hp
      rcases ih acc2 s2 h j hj with hj2 | hb
      · exact processPart_ok_mem hp j hj2
      · exact Or.inr hb
    · exact absurd h (by simp)

lemma processParts_ok_nodup {maxPage : ℤ} : ∀ (parts : List (List Char))
    (acc s2 : List ℤ), processParts maxPage acc parts = .ok s2 →
    acc.Nodup → s2.Nodup := by
  intro parts
  induction parts with
  | nil =>
    intro acc s2 h hacc
    simp only [processParts] at h
    injection h with h
    subst h
    exact hacc
  | cons p ps ih =>
    intro acc s2 h hacc
    simp only [processParts] at h
    split at h
    · rename_i acc2 hp
      exact ih acc2 s2 h (processPart_ok_nodup hp hacc)
    · exact absurd h (by simp)

lemma processParts_error_of_trim_nil {maxPage : ℤ} : ∀ (parts : List (List Char))
    (acc : List ℤ), (∃ p ∈ parts, trim p = []) →
    ∃ e, processParts maxPage acc parts = .error e := by
  intro parts
  induction parts with
  | nil =>
    rintro acc ⟨p, hp, _⟩
    exact absurd hp (List.not_mem_nil p)
  | cons q ps ih =>
    rintro acc ⟨p, hp, hpe⟩
    rcases List.mem_cons.mp hp with rfl | hp
    · exact ⟨.invalidPageNumber [],
        by simp only [processParts, processPart_of_trim_nil hpe]⟩
    · simp only [processParts]
      cases hq : processPart maxPage acc q with
      | ok acc2 =>
        rcases ih acc2 ⟨p, hp, hpe⟩ with ⟨e, he⟩
        exact ⟨e, by simp only [hq, he]⟩
      | error e => exact ⟨e, by simp only [hq]⟩

/-- Successful parses are sortedness-characterised: extract the ordered index
list together with nodup and bounds from a successful parsePageRanges run. -/
lemma parsePageRanges_ok_props {rangeStr : List Char} {maxPage : ℤ} {l : List ℤ}
    (h : parsePageRanges rangeStr maxPage = .ok l) :
    l.Sorted (· < ·) ∧ l.Nodup ∧ ∀ j ∈ l, 0 ≤ j ∧ j < maxPage := by
  simp only [parsePageRanges] at h
  split at h
  · injection h with h
    subst h
    refine ⟨List.sorted_nil, List.nodup_nil, ?_⟩
    intro j hj
    exact absurd hj (List.not_mem_nil j)
  · split at h
    · rename_i s hs
      injection h with h
      subst h
      have hperm : List.Perm (List.insertionSort (· ≤ ·) s) s :=
        List.perm_insertionSort _ s
      have hnd : s.Nodup :=
        processParts_ok_nodup _ _ _ hs List.nodup_nil
      have hnd2 : (List.insertionSort (· ≤ ·) s).Nodup := hperm.nodup_iff.mpr hnd
      have hsort : (List.insertionSort (· ≤ ·) s).Sorted (· ≤ ·) :=
        List.sorted_insertionSort _ s
      refine ⟨hsort.lt_of_le hnd2, hnd2, ?_⟩
      intro j hj
      rcases processParts_ok_mem _ _ _ hs j (hperm.mem_iff.mp hj) with h0 | hb
      · exact absurd h0 (List.not_mem_nil j)
      · exact hb
    · exact absurd h (by simp)

/-- Claim C2: whenever parse succeeds (for any expression and any
totalPages at least 1), the returned zero-based indices are strictly
ascending, duplicate-free, and each lies in [0, totalPages); in particular
parse of "1,1,2" against 5 pages returns [0, 1]. -/
theorem claim_C2 :
    (∀ (rangeStr : List Char) (maxPage : ℤ) (l : List ℤ), 1 ≤ maxPage →
        parsePageRanges rangeStr maxPage = .ok l →
        l.Sorted (· < ·) ∧ l.Nodup ∧ ∀ j ∈ l, 0 ≤ j ∧ j < maxPage)
    ∧ parsePageRanges ("1,1,2".data) 5 = .ok [0, 1] := by
  constructor
  · intro rangeStr maxPage l _ h
    exact parsePageRanges_ok_props h
  · decide

theorem claim_C2_witness :
    ([0, 1] : List ℤ).Sorted (· < ·) ∧ ([0, 1] : List ℤ).Nodup ∧
      ∀ j ∈ ([0, 1] : List ℤ), 0 ≤ j ∧ j < 5 :=
  claim_C2.1 ("1,1,2".data) 5 [0, 1] (by decide) (by decide)

/-- Claim C3 counterexample: parse does not discard empty segments.  On the
expression "1,,2" with 5 pages the code throws InvalidPageNumber at the empty
middle segment, whereas removing the empty segment ("1,2") succeeds with
[0, 1]; likewise the trailing-comma expression "1,2," throws rather than
behaving like "1,2". -/
theorem claim_C3_cex :
    parsePageRanges ("1,,2".data) 5 = .error (.invalidPageNumber [])
    ∧ parsePageRanges ("1,2,".data) 5 = .error (.invalidPageNumber [])
    ∧ parsePageRanges ("1,2".data) 5 = .ok [0, 1] := by
  refine ⟨by decide, by decide, by decide⟩

/-- Claim C3 (amended): parse splits the expression on commas and trims each
segment, but does NOT discard empty segments: an empty segment is fed to
parseInt, which yields NaN, so any non-blank expression containing an empty
segment (for example "1,,2" or the trailing-comma "1,2,") makes parse raise
an error instead of behaving like the expression with the empty segments
removed. -/
theorem claim_C3 (rangeStr : List Char) (maxPage : ℤ)
    (hne : trim rangeStr ≠ [])
    (hempty : ∃ p ∈ splitOnChar ',' rangeStr, trim p = []) :
    ∃ e, parsePageRanges rangeStr maxPage = .error e := by
  rcases @processParts_error_of_trim_nil maxPage
      (splitOnChar ',' rangeStr) [] hempty with ⟨e, he⟩
  refine ⟨e, ?_⟩
  simp only [parsePageRanges, if_neg hne, he]

theorem claim_C3_witness :
    ∃ e, parsePageRanges ("1,,2".data) 5 = .error e :=
  claim_C3 ("1,,2".data) 5 (by decide) (by decide)

/- Segment-level behaviour of the parser. -/

lemma splitOnChar_of_not_mem {sep : Char} : ∀ {s : List Char}, sep ∉ s →
    splitOnChar sep s = [s] := by
  intro s
  induction s with
  | nil => intro _; rfl
  | cons c rest ih =>
    intro h
    have hc : ¬ c = sep := fun hceq => h (hceq ▸ List.mem_cons_self c rest)
    have hrest : sep ∉ rest := fun hm => h (List.mem_cons_of_mem c hm)
    simp only [splitOnChar, if_neg hc, ih hrest]

/-- A comma-free expression is a single segment: parsePageRanges on it is the
processing of that one segment followed by the final sort. -/
lemma parsePageRanges_single {seg : List Char} {maxPage : ℤ}
    (hc : ',' ∉ seg) (hne : trim seg ≠ []) :
    parsePageRanges seg maxPage =
      match processPart maxPage [] seg with
      | .ok s => .ok (List.insertionSort (· ≤ ·) s)
      | .error e => .error e := by
  simp only [parsePageRanges, if_neg hne, splitOnChar_of_not_mem hc]
  cases h : processPart maxPage [] seg with
  | ok s => simp only [processParts, h]
  | error e => simp only [processParts, h]

/-- The accepting case of the dash branch: in-range start, ordered endpoints;
the end is capped at maxPage and the zero-based range is folded into the
accumulated set. -/
lemma processPart_dash_ok {maxPage : ℤ} {acc : List ℤ} {part : List Char}
    {s1 s2 : List Char} {rest : List (List Char)} {st en : ℤ}
    (hd : '-' ∈ trim part)
    (hsplit : splitOnChar '-' (trim part) = s1 :: s2 :: rest)
    (h1 : parseInt s1 = some st) (h2 : parseInt s2 = some en)
    (hst : 1 ≤ st) (hen : st ≤ en) (hmax : st ≤ maxPage) :
    processPart maxPage acc part =
      .ok ((intRange st (min en maxPage)).foldl (fun s i => setAdd s (i - 1)) acc) := by
  simp only [processPart, if_pos hd, hsplit, h1, h2]
  rw [if_neg (by omega)]

/-- Claim C5: a segment containing a dash fails with InvalidRange exactly when
one of its first two dash-separated tokens is not a base-10 integer (NaN), or
start is below 1, or end is below start, or start exceeds totalPages; when it
does not fail, end is clamped to min(end, totalPages) and every zero-based
index from start - 1 through the clamped end - 1 is added to the result set. -/
theorem claim_C5 (maxPage : ℤ) (acc : List ℤ) (part : List Char)
    (s1 s2 : List Char) (rest : List (List Char)) (hmp : 1 ≤ maxPage)
    (hd : '-' ∈ trim part)
    (hsplit : splitOnChar '-' (trim part) = s1 :: s2 :: rest) :
    (processPart maxPage acc part = .error (.invalidRange (trim part)) ↔
      (match parseInt s1, parseInt s2 with
       | some st, some en => st < 1 ∨ en < st ∨ maxPage < st
       | _, _ => True))
    ∧ ∀ st en, parseInt s1 = some st → parseInt s2 = some en →
        1 ≤ st → st ≤ en → st ≤ maxPage →
        ∃ s3, processPart maxPage acc part = .ok s3 ∧
          ∀ j : ℤ, j ∈ s3 ↔ j ∈ acc ∨ (st - 1 ≤ j ∧ j ≤ min en maxPage - 1) := by
  constructor
  · cases h1 : parseInt s1 with
    | none =>
      cases h2 : parseInt s2 with
      | none => simp only [processPart, if_pos hd, hsplit, h1, h2]
      | some en => simp only [processPart, if_pos hd, hsplit, h1, h2]
    | some st =>
      cases h2 : parseInt s2 with
      | none => simp only [processPart, if_pos hd, hsplit, h1, h2]
      | some en =>
        simp only [processPart, if_pos hd, hsplit, h1, h2]
        by_cases hcond : st < 1 ∨ en < st ∨ maxPage < st
        · rw [if_pos hcond]
          simp [hcond]
        · rw [if_neg hcond]
          simp [hcond]
  · intro st en h1 h2 hst hen hmax
    refine ⟨_, processPart_dash_ok hd hsplit h1 h2 hst hen hmax, ?_⟩
    intro j
    rw [mem_foldl_setAdd]
    constructor
    · rintro (hj | ⟨i, hi, rfl⟩)
      · exact Or.inl hj
      · right
        rcases mem_intRange.mp hi with ⟨ha, hb⟩
        omega
    · rintro (hj | ⟨hj1, hj2⟩)
      · exact Or.inl hj
      · right
        exact ⟨j + 1, mem_intRange.mpr (by omega), by omega⟩

theorem claim_C5_witness :
    ∃ s3, processPart 10 [] ("2-100".data) = .ok s3 ∧
      ∀ j : ℤ, j ∈ s3 ↔ j ∈ ([] : List ℤ) ∨ (2 - 1 ≤ j ∧ j ≤ min 100 10 - 1) :=
  (claim_C5 10 [] ("2-100".data) ("2".data) ("100".data) [] (by decide)
      (by decide) (by decide)).2 2 100 (by decide) (by decide) (by decide)
      (by decide) (by decide)

/-- Claim C6: a segment without a dash fails with InvalidPageNumber exactly
when it is not a base-10 integer (NaN) or its value lies outside
[1, totalPages]; when it does not fail, value - 1 is added to the result
set. -/
theorem claim_C6 (maxPage : ℤ) (acc : List ℤ) (part : List Char)
    (hmp : 1 ≤ maxPage) (hd : '-' ∉ trim part) :
    (processPart maxPage acc part = .error (.invalidPageNumber (trim part)) ↔
      (match parseInt (trim part) with
       | none => True
       | some p => p < 1 ∨ maxPage < p))
    ∧ ∀ p, parseInt (trim part) = some p → 1 ≤ p → p ≤ maxPage →
        processPart maxPage acc part = .ok (setAdd acc (p - 1)) := by
  constructor
  · cases hp : parseInt (trim part) with
    | none =>
      simp only [processPart, if_neg hd, hp]
    | some p =>
      simp only [processPart, if_neg hd, hp]
      by_cases hcond : p < 1 ∨ maxPage < p
      · rw [if_pos hcond]
        simp [hcond]
      · rw [if_neg hcond]
        simp [hcond]
  · intro p hp h1 h2
    simp only [processPart, if_neg hd, hp]
    rw [if_neg (by omega)]

theorem claim_C6_witness :
    processPart 5 [] ("3".data) = .ok [2] :=
  (claim_C6 5 [] ("3".data) (by decide) (by decide)).2 3 (by decide)
    (by decide) (by decide)

/-- Claim C1: against 10 pages, "1-100" is accepted and clamped to the full
document ([0..9]) while the standalone "101" is rejected with
InvalidPageNumber; in general, for any totalPages at least 1, a single-segment
dash range whose start lies in [1, totalPages] but whose end exceeds
totalPages parses successfully to exactly the indices start - 1 through
totalPages - 1, whereas a standalone page number above totalPages fails with
InvalidPageNumber. -/
theorem claim_C1 :
    parsePageRanges ("1-100".data) 10 = .ok [0, 1, 2, 3, 4, 5, 6, 7, 8, 9]
    ∧ parsePageRanges ("101".data) 10 = .error (.invalidPageNumber ("101".data))
    ∧ (∀ (maxPage : ℤ) (seg s1 s2 : List Char) (rest : List (List Char))
         (st en : ℤ), 1 ≤ maxPage → ',' ∉ seg → '-' ∈ trim seg →
         splitOnChar '-' (trim seg) = s1 :: s2 :: rest →
         parseInt s1 = some st → parseInt s2 = some en →
         1 ≤ st → st ≤ maxPage → maxPage < en →
         ∃ l, parsePageRanges seg maxPage = .ok l ∧
           ∀ j : ℤ, j ∈ l ↔ st - 1 ≤ j ∧ j ≤ maxPage - 1)
    ∧ (∀ (maxPage : ℤ) (seg : List Char) (p : ℤ), 1 ≤ maxPage → ',' ∉ seg →
         '-' ∉ trim seg → parseInt (trim seg) = some p → maxPage < p →
         parsePageRanges seg maxPage = .error (.invalidPageNumber (trim seg))) := by
  refine ⟨by decide, by decide, ?_, ?_⟩
  · intro maxPage seg s1 s2 rest st en hmp hcomma hd hsplit h1 h2 hst hmax hlt
    have hne : trim seg ≠ [] := by
      intro h0
      rw [h0] at hd
      exact absurd hd (List.not_mem_nil _)
    have hok := @processPart_dash_ok maxPage [] seg s1 s2 rest st en hd hsplit
      h1 h2 hst (by omega) hmax
    rw [parsePageRanges_single hcomma hne, hok]
    refine ⟨_, rfl, ?_⟩
    intro j
    have hperm : List.Perm
        (List.insertionSort (· ≤ ·)
          ((intRange st (min en maxPage)).foldl (fun s i => setAdd s (i - 1)) []))
        ((intRange st (min en maxPage)).foldl (fun s i => setAdd s (i - 1)) []) :=
      List.perm_insertionSort _ _
    rw [hperm.mem_iff, mem_foldl_setAdd]
    rw [min_eq_right (le_of_lt hlt)]
    constructor
    · rintro (hj | ⟨i, hi, rfl⟩)
      · exact absurd hj (List.not_mem_nil j)
      · rcases mem_intRange.mp hi with ⟨ha, hb⟩
        omega
    · rintro ⟨hj1, hj2⟩
      exact Or.inr ⟨j + 1, mem_intRange.mpr (by omega), by omega⟩
  · intro maxPage seg p hmp hcomma hd hp hlt
    have hne : trim seg ≠ [] := by
      intro h0
      rw [h0, show parseInt ([] : List Char) = none from by decide] at hp
      cases hp
    rw [parsePageRanges_single hcomma hne]
    have herr : processPart maxPage [] seg = .error (.invalidPageNumber (trim seg)) := by
      simp only [processPart, if_neg hd, hp]
      rw [if_pos (by omega)]
    rw [herr]

theorem claim_C1_witness :
    (∃ l, parsePageRanges ("2-100".data) 10 = .ok l ∧
        ∀ j : ℤ, j ∈ l ↔ 2 - 1 ≤ j ∧ j ≤ 10 - 1)
    ∧ parsePageRanges ("  12  ".data) 10 =
        .error (.invalidPageNumber ("12".data)) :=
  ⟨claim_C1.2.2.1 10 ("2-100".data) ("2".data) ("100".data) [] 2 100 (by decide)
      (by decide) (by decide) (by decide) (by decide) (by decide) (by decide)
      (by decide) (by decide),
   claim_C1.2.2.2 10 ("  12  ".data) 12 (by decide) (by decide) (by decide)
      (by decide) (by decide)⟩

/- The image page-fit computation. -/

/-- Claim C4 counterexample: the source has no MarginTooLarge check; the fit
computation is total and, at a margin consuming the whole page width
(2 * 300 ≥ 600), it still produces a rectangle (a degenerate one of width and
height 0) instead of failing. -/
theorem claim_C4_cex :
    computeFit 200 100 600 2000 300 =
      { x := 300, y := 1000, width := 0, height := 0 } := by
  rw [computeFit]; rw [if_pos (by norm_num)]; norm_num

/-- Claim C4 (amended): the fit computation performs no margin check and
cannot fail: it always returns a rectangle.  When the margin leaves no
available width (pageWidth - 2 * margin ≤ 0) while the available height stays
positive, the returned rectangle has width ≤ 0 and height ≤ 0 instead of a
MarginTooLarge failure. -/
theorem claim_C4 (iw ih pw ph m : ℚ) (hiw : 0 < iw) (hih : 0 < ih)
    (haw : pw - 2 * m ≤ 0) (hah : 0 < ph - 2 * m) :
    (computeFit iw ih pw ph m).width ≤ 0 ∧ (computeFit iw ih pw ph m).height ≤ 0 := by
  have hia : 0 < iw / ih := div_pos hiw hih
  have hpa : (pw - 2 * m) / (ph - 2 * m) ≤ 0 :=
    div_nonpos_of_nonpos_of_nonneg haw hah.le
  have hgt : iw / ih > (pw - 2 * m) / (ph - 2 * m) := lt_of_le_of_lt hpa hia
  simp only [computeFit]
  rw [if_pos hgt]
  exact ⟨haw, div_nonpos_of_nonpos_of_nonneg haw hia.le⟩

theorem claim_C4_witness :
    (computeFit 200 100 600 2000 300).width ≤ 0 ∧
      (computeFit 200 100 600 2000 300).height ≤ 0 :=
  claim_C4 200 100 600 2000 300 (by norm_num) (by norm_num) (by norm_num)
    (by norm_num)

/-- Claim C7: the fit is a contain fit.  With availableWidth = pageWidth -
2 * margin and availableHeight = pageHeight - 2 * margin, when the image
aspect ratio exceeds that of the available area the draw width is the full
available width and the height is derived from the image aspect ratio;
otherwise the draw height is the full available height and the width is
derived; the rectangle is centered in the available area on both axes; and
the concrete instance 200 x 100 on a 600 x 800 page with margin 20 yields
width 560, height 280, x = 20, y = 260. -/
theorem claim_C7 :
    (∀ iw ih pw ph m : ℚ, 0 < iw → 0 < ih →
      ((iw / ih > (pw - 2 * m) / (ph - 2 * m) →
          (computeFit iw ih pw ph m).width = pw - 2 * m ∧
          (computeFit iw ih pw ph m).height = (pw - 2 * m) * ih / iw)
       ∧ (¬ iw / ih > (pw - 2 * m) / (ph - 2 * m) →
          (computeFit iw ih pw ph m).height = ph - 2 * m ∧
          (computeFit iw ih pw ph m).width = (ph - 2 * m) * iw / ih)
       ∧ (computeFit iw ih pw ph m).x =
           m + ((pw - 2 * m) - (computeFit iw ih pw ph m).width) / 2
       ∧ (computeFit iw ih pw ph m).y =
           m + ((ph - 2 * m) - (computeFit iw ih pw ph m).height) / 2))
    ∧ computeFit 200 100 600 800 20 = { x := 20, y := 260, width := 560, height := 280 } := by
  constructor
  · intro iw ih pw ph m hiw hih
    have hiw0 : iw ≠ 0 := ne_of_gt hiw
    have hih0 : ih ≠ 0 := ne_of_gt hih
    by_cases hgt : iw / ih > (pw - 2 * m) / (ph - 2 * m)
    · simp only [computeFit]
      rw [if_pos hgt]
      refine ⟨fun _ => ⟨rfl, ?_⟩, fun hng => absurd hgt hng, rfl, rfl⟩
      show (pw - 2 * m) / (iw / ih) = (pw - 2 * m) * ih / iw
      rw [div_div_eq_mul_div]
    · simp only [computeFit]
      rw [if_neg hgt]
      refine ⟨fun hgt2 => absurd hgt2 hgt, fun _ => ⟨rfl, ?_⟩, rfl, rfl⟩
      show (ph - 2 * m) * (iw / ih) = (ph - 2 * m) * iw / ih
      rw [mul_div_assoc]
  · rw [computeFit]; rw [if_pos (by norm_num)]; norm_num

theorem claim_C7_witness :
    (computeFit 200 100 600 800 20).width = 600 - 2 * 20 ∧
      (computeFit 200 100 600 800 20).height = (600 - 2 * 20) * 100 / 200 :=
  (claim_C7.1 200 100 600 800 20 (by norm_num) (by norm_num)).1 (by norm_num)

/-- Claim C8: for positive image and page dimensions and a non-negative
margin leaving a positive available area on both axes, the computed rectangle
preserves the image aspect ratio exactly, lies inside the margin-inset page
area on both axes, and is centered (equal gaps on both sides) on both axes,
in particular on whichever axis has slack. -/
theorem claim_C8 (iw ih pw ph m : ℚ) (hiw : 0 < iw) (hih : 0 < ih)
    (hpw : 0 < pw) (hph : 0 < ph) (hm : 0 ≤ m)
    (haw : 0 < pw - 2 * m) (hah : 0 < ph - 2 * m) :
    (computeFit iw ih pw ph m).width / (computeFit iw ih pw ph m).height = iw / ih
    ∧ m ≤ (computeFit iw ih pw ph m).x
    ∧ (computeFit iw ih pw ph m).x + (computeFit iw ih pw ph m).width ≤ pw - m
    ∧ m ≤ (computeFit iw ih pw ph m).y
    ∧ (computeFit iw ih pw ph m).y + (computeFit iw ih pw ph m).height ≤ ph - m
    ∧ 2 * (computeFit iw ih pw ph m).x + (computeFit iw ih pw ph m).width = pw
    ∧ 2 * (computeFit iw ih pw ph m).y + (computeFit iw ih pw ph m).height = ph := by
  have hia : 0 < iw / ih := div_pos hiw hih
  have hiw0 : iw ≠ 0 := ne_of_gt hiw
  have hih0 : ih ≠ 0 := ne_of_gt hih
  have haw0 : pw - 2 * m ≠ 0 := ne_of_gt haw
  have hah0 : ph - 2 * m ≠ 0 := ne_of_gt hah
  by_cases hgt : iw / ih > (pw - 2 * m) / (ph - 2 * m)
  · simp only [computeFit]
    rw [if_pos hgt]
    have hh : 0 < (pw - 2 * m) / (iw / ih) := div_pos haw hia
    have h1 : pw - 2 * m < iw / ih * (ph - 2 * m) := (div_lt_iff₀ hah).mp hgt
    have h2 : (pw - 2 * m) / (iw / ih) < ph - 2 * m := by
      rw [div_lt_iff₀ hia]
      linarith [mul_comm (iw / ih) (ph - 2 * m)]
    refine ⟨?_, by linarith, by linarith, by linarith, by linarith, by ring, by ring⟩
    show (pw - 2 * m) / ((pw - 2 * m) / (iw / ih)) = iw / ih
    rw [div_div_eq_mul_div, mul_div_assoc, mul_comm]
    exact div_mul_cancel₀ _ haw0
  · simp only [computeFit]
    rw [if_neg hgt]
    have hle : iw / ih ≤ (pw - 2 * m) / (ph - 2 * m) := le_of_not_lt hgt
    have hw : 0 < (ph - 2 * m) * (iw / ih) := mul_pos hah hia
    have h1 : (ph - 2 * m) * (iw / ih) ≤ (ph - 2 * m) * ((pw - 2 * m) / (ph - 2 * m)) :=
      mul_le_mul_of_nonneg_left hle hah.le
    have h2 : (ph - 2 * m) * ((pw - 2 * m) / (ph - 2 * m)) = pw - 2 * m := by
      field_simp
    have h3 : (ph - 2 * m) * (iw / ih) ≤ pw - 2 * m := by
      rw [h2] at h1
      exact h1
    refine ⟨?_, by linarith, by linarith, by linarith, by linarith, by ring, by ring⟩
    show (ph - 2 * m) * (iw / ih) / (ph - 2 * m) = iw / ih
    rw [mul_comm, mul_div_assoc, div_self hah0, mul_one]

theorem claim_C8_witness :
    (computeFit 200 100 600 800 20).width / (computeFit 200 100 600 800 20).height
        = 200 / 100
    ∧ 20 ≤ (computeFit 200 100 600 800 20).x
    ∧ (computeFit 200 100 600 800 20).x + (computeFit 200 100 600 800 20).width
        ≤ 600 - 20
    ∧ 20 ≤ (computeFit 200 100 600 800 20).y
    ∧ (computeFit 200 100 600 800 20).y + (computeFit 200 100 600 800 20).height
        ≤ 800 - 20
    ∧ 2 * (computeFit 200 100 600 800 20).x + (computeFit 200 100 600 800 20).width
        = 600
    ∧ 2 * (computeFit 200 100 600 800 20).y + (computeFit 200 100 600 800 20).height
        = 800 :=
  claim_C8 200 100 600 800 20 (by norm_num) (by norm_num) (by norm_num)
    (by norm_num) (by norm_num) (by norm_num) (by norm_num)

/-- Claim C9: an image whose aspect ratio exactly equals the available
aspect ratio of the available area fills the available area completely, with zero centering
offset on both axes. -/
theorem claim_C9 (iw ih pw ph m : ℚ) (hiw : 0 < iw) (hih : 0 < ih)
    (haw : 0 < pw - 2 * m) (hah : 0 < ph - 2 * m)
    (hasp : iw / ih = (pw - 2 * m) / (ph - 2 * m)) :
    computeFit iw ih pw ph m =
      { x := m, y := m, width := pw - 2 * m, height := ph - 2 * m } := by
  have hah0 : ph - 2 * m ≠ 0 := ne_of_gt hah
  have hng : ¬ iw / ih > (pw - 2 * m) / (ph - 2 * m) := by
    rw [hasp]
    exact lt_irrefl _
  have hfill : (ph - 2 * m) * (iw / ih) = pw - 2 * m := by
    rw [hasp]
    field_simp
  simp only [computeFit]
  rw [if_neg hng]
  rw [PageFitRect.mk.injEq]
  refine ⟨?_, ?_, hfill, rfl⟩
  · rw [hfill]
    ring
  · ring

theorem claim_C9_witness :
    computeFit 560 760 600 800 20 =
      { x := 20, y := 20, width := 600 - 2 * 20, height := 800 - 2 * 20 } :=
  claim_C9 560 760 600 800 20 (by norm_num) (by norm_num) (by norm_num)
    (by norm_num) (by norm_num)

/- Occurrences of a two-character pattern and first-occurrence replacement. -/

lemma hasPair_append (x y : Char) : ∀ (u v : List Char),
    (hasPair x y (u ++ v) = true ↔
      hasPair x y u = true ∨ hasPair x y v = true ∨
        (u.getLast? = some x ∧ v.head? = some y)) := by
  intro u
  induction u with
  | nil =>
    intro v
    simp [hasPair]
  | cons c u2 ih =>
    intro v
    cases u2 with
    | nil =>
      cases v with
      | nil => simp [hasPair]
      | cons d v2 =>
        simp only [List.singleton_append, hasPair, Bool.or_eq_true,
          decide_eq_true_eq, List.getLast?_singleton, List.head?_cons,
          Option.some.injEq]
        tauto
    | cons d u3 =>
      have := ih v
      simp only [List.cons_append] at this ⊢
      simp only [hasPair, Bool.or_eq_true, decide_eq_true_eq] at this ⊢
      rw [List.getLast?_cons_cons]
      tauto

lemma hasPair_false_of_left {x y : Char} {u v : List Char}
    (h : hasPair x y (u ++ v) = false) : hasPair x y u = false := by
  by_contra hu
  rw [Bool.not_eq_false] at hu
  have : hasPair x y (u ++ v) = true := (hasPair_append x y u v).mpr (Or.inl hu)
  rw [h] at this
  cases this

lemma hasPair_false_cons {x y c : Char} {l : List Char}
    (h : hasPair x y (c :: l) = false) : hasPair x y l = false := by
  cases l with
  | nil => rfl
  | cons d l2 =>
    simp only [hasPair, Bool.or_eq_false_iff] at h
    exact h.2

lemma hasPair_false_of_no_fst {x y : Char} {m : List Char}
    (h : ∀ c ∈ m, ¬ c = x) : hasPair x y m = false := by
  induction m with
  | nil => rfl
  | cons c m2 ih =>
    cases m2 with
    | nil => rfl
    | cons d m3 =>
      simp only [hasPair, Bool.or_eq_false_iff, decide_eq_false_iff_not]
      refine ⟨fun hcd => h c (List.mem_cons_self c _) hcd.1, ?_⟩
      exact ih (fun e he => h e (List.mem_cons_of_mem c he))

lemma getLast?_mem_of_ne_nil {l : List Char} {a : Char}
    (h : l.getLast? = some a) : a ∈ l := by
  cases l with
  | nil => cases h
  | cons c l2 =>
    have := List.getLast?_eq_getLast (c :: l2) (by simp)
    rw [this] at h
    injection h with h
    rw [← h]
    exact List.getLast_mem _

/-- Splicing a nonempty string containing neither pattern character between
two pattern-free strings keeps the whole pattern-free. -/
lemma hasPair_splice {x y : Char} {u m w : List Char}
    (hu : hasPair x y u = false) (hw : hasPair x y w = false)
    (hm : ∀ c ∈ m, ¬ c = x ∧ ¬ c = y) (hmne : m ≠ []) :
    hasPair x y (u ++ m ++ w) = false := by
  rw [List.append_assoc]
  by_contra hcon
  rw [Bool.not_eq_false] at hcon
  rcases (hasPair_append x y u (m ++ w)).mp hcon with h | h | ⟨_, hhead⟩
  · rw [hu] at h
    cases h
  · rcases (hasPair_append x y m w).mp h with h2 | h2 | ⟨hlast, _⟩
    · rw [hasPair_false_of_no_fst (fun c hc => (hm c hc).1)] at h2
      cases h2
    · rw [hw] at h2
      cases h2
    · exact (hm x (getLast?_mem_of_ne_nil hlast)).1 rfl
  · cases m with
    | nil => exact hmne rfl
    | cons c m2 =>
      rw [List.cons_append, List.head?_cons] at hhead
      injection hhead with hhead
      exact (hm c (List.mem_cons_self c m2)).2 hhead

lemma replace2_eq_self (x y : Char) (rep : List Char) : ∀ s : List Char,
    hasPair x y s = false → replace2 x y rep s = s := by
  intro s
  induction s with
  | nil => intro _; rfl
  | cons a t ih =>
    cases t with
    | nil => intro _; rfl
    | cons b t2 =>
      intro h
      simp only [hasPair, Bool.or_eq_false_iff, decide_eq_false_iff_not] at h
      simp only [replace2, if_neg h.1]
      rw [ih h.2]

/-- First-occurrence replacement: when the pattern pair does not occur in the
prefix a (and the two pattern characters differ, so the pattern cannot
overlap the seam), replacing in a ++ x :: y :: b substitutes exactly that
occurrence. -/
lemma replace2_append (x y : Char) (hxy : x ≠ y) (rep : List Char) :
    ∀ (a b : List Char), hasPair x y a = false →
      replace2 x y rep (a ++ x :: y :: b) = a ++ rep ++ b := by
  intro a
  induction a with
  | nil =>
    intro b _
    simp [replace2]
  | cons c a2 ih =>
    intro b h
    cases a2 with
    | nil =>
      have hc : ¬ (c = x ∧ x = y) := fun hcd => hxy hcd.2
      simp [replace2, hc]
    | cons d a3 =>
      simp only [hasPair, Bool.or_eq_false_iff, decide_eq_false_iff_not] at h
      have := ih b h.2
      simp only [List.cons_append] at this ⊢
      simp only [replace2, if_neg h.1]
      rw [this]

/- Digit strings produced by the toString model. -/

lemma digitChar_bounds (d : ℕ) :
    48 ≤ (digitChar d).toNat ∧ (digitChar d).toNat ≤ 57 := by
  rcases d with _|_|_|_|_|_|_|_|_|d <;> first
    | decide
    | exact show 48 ≤ ('9' : Char).toNat ∧ ('9' : Char).toNat ≤ 57 by decide

lemma natToCharsAux_digits : ∀ (fuel n : ℕ) (acc : List Char),
    (∀ c ∈ acc, 48 ≤ c.toNat ∧ c.toNat ≤ 57) →
    ∀ c ∈ natToCharsAux fuel n acc, 48 ≤ c.toNat ∧ c.toNat ≤ 57 := by
  intro fuel
  induction fuel with
  | zero =>
    intro n acc hacc c hc
    rcases List.mem_cons.mp hc with rfl | hc2
    · exact digitChar_bounds n
    · exact hacc c hc2
  | succ f ih =>
    intro n acc hacc c hc
    simp only [natToCharsAux] at hc
    split at hc
    · rcases List.mem_cons.mp hc with rfl | hc2
      · exact digitChar_bounds n
      · exact hacc c hc2
    · refine ih (n / 10) _ ?_ c hc
      intro e he
      rcases List.mem_cons.mp he with rfl | he2
      · exact digitChar_bounds (n % 10)
      · exact hacc e he2

lemma natToChars_digits (n : ℕ) :
    ∀ c ∈ natToChars n, 48 ≤ c.toNat ∧ c.toNat ≤ 57 :=
  natToCharsAux_digits n n [] (fun c hc => absurd hc (List.not_mem_nil c))

lemma natToCharsAux_ne_nil : ∀ (fuel n : ℕ) (acc : List Char),
    natToCharsAux fuel n acc ≠ [] := by
  intro fuel
  induction fuel with
  | zero => intro n acc h; cases h
  | succ f ih =>
    intro n acc
    simp only [natToCharsAux]
    split
    · intro h; cases h
    · exact ih (n / 10) _

lemma natToChars_ne_nil (n : ℕ) : natToChars n ≠ [] :=
  natToCharsAux_ne_nil n n []

lemma natToChars_not_special (n : ℕ) :
    ∀ c ∈ natToChars n, ¬ c = '%' ∧ ¬ c = 't' ∧ ¬ c = 'p' := by
  intro c hc
  rcases natToChars_digits n c hc with ⟨h1, h2⟩
  refine ⟨?_, ?_, ?_⟩ <;> rintro rfl
  · exact absurd h1 (by decide)
  · exact absurd h2 (by decide)
  · exact absurd h2 (by decide)

lemma hasPair_false_of_right {x y : Char} {u v : List Char}
    (h : hasPair x y (u ++ v) = false) : hasPair x y v = false := by
  by_contra hv
  rw [Bool.not_eq_false] at hv
  have : hasPair x y (u ++ v) = true :=
    (hasPair_append x y u v).mpr (Or.inr (Or.inl hv))
  rw [h] at this
  cases this

/-- Claim C10: addPageNumbersToPdf substitutes only the FIRST occurrence of
the percent-p pair (with the 1-based page number) and only the first
occurrence of the percent-t pair (with the total page count); any further
occurrences of either pair remain verbatim in the drawn text.  The five
conjuncts cover every format string by which of the two pairs occur and in
which order: first percent-p before first percent-t, the converse order, a
format containing percent-p but no percent-t, a format containing percent-t
but no percent-p, and a format containing neither pair.  In each case the
prefixes a (and the gap b) are pair-free exactly so as to mark the FIRST
occurrences, while the remainder after a first occurrence (the suffix b or c)
is arbitrary and kept verbatim, so any later occurrences stay untouched. -/
theorem claim_C10 :
    (∀ (a b c : List Char) (i total : ℕ),
        hasPair '%' 'p' a = false →
        hasPair '%' 't' (a ++ '%' :: 'p' :: b) = false →
        pageNumStr (a ++ '%' :: 'p' :: (b ++ '%' :: 't' :: c)) i total
          = a ++ natToChars (i + 1) ++ b ++ natToChars total ++ c)
    ∧ (∀ (a b c : List Char) (i total : ℕ),
        hasPair '%' 'p' (a ++ '%' :: 't' :: b) = false →
        hasPair '%' 't' a = false →
        pageNumStr (a ++ '%' :: 't' :: (b ++ '%' :: 'p' :: c)) i total
          = a ++ natToChars total ++ b ++ natToChars (i + 1) ++ c)
    ∧ (∀ (a b : List Char) (i total : ℕ),
        hasPair '%' 'p' a = false →
        hasPair '%' 't' (a ++ '%' :: 'p' :: b) = false →
        pageNumStr (a ++ '%' :: 'p' :: b) i total
          = a ++ natToChars (i + 1) ++ b)
    ∧ (∀ (a b : List Char) (i total : ℕ),
        hasPair '%' 't' a = false →
        hasPair '%' 'p' (a ++ '%' :: 't' :: b) = false →
        pageNumStr (a ++ '%' :: 't' :: b) i total
          = a ++ natToChars total ++ b)
    ∧ (∀ (format : List Char) (i total : ℕ),
        hasPair '%' 'p' format = false → hasPair '%' 't' format = false →
        pageNumStr format i total = format) := by
  refine ⟨?_, ?_, ?_, ?_, ?_⟩
  · intro a b c i total h1 h2
    have e1 := replace2_append '%' 'p' (by decide) (natToChars (i + 1)) a
      (b ++ '%' :: 't' :: c) h1
    simp only [pageNumStr]
    rw [e1]
    have ha : hasPair '%' 't' a = false := hasPair_false_of_left h2
    have hb : hasPair '%' 't' b = false :=
      hasPair_false_cons (hasPair_false_cons (hasPair_false_of_right h2))
    have hsplice : hasPair '%' 't' ((a ++ natToChars (i + 1)) ++ b) = false :=
      hasPair_splice ha hb
        (fun e he => ⟨(natToChars_not_special _ e he).1,
          (natToChars_not_special _ e he).2.1⟩)
        (natToChars_ne_nil _)
    have e2 := replace2_append '%' 't' (by decide) (natToChars total)
      ((a ++ natToChars (i + 1)) ++ b) c hsplice
    rw [show a ++ natToChars (i + 1) ++ (b ++ '%' :: 't' :: c) =
        a ++ natToChars (i + 1) ++ b ++ '%' :: 't' :: c by
      simp [List.append_assoc]]
    rw [e2]
  · intro a b c i total h1 h2
    simp only [pageNumStr]
    rw [show a ++ '%' :: 't' :: (b ++ '%' :: 'p' :: c) =
        (a ++ '%' :: 't' :: b) ++ '%' :: 'p' :: c by simp [List.append_assoc]]
    have e1 := replace2_append '%' 'p' (by decide) (natToChars (i + 1))
      (a ++ '%' :: 't' :: b) c h1
    rw [e1]
    rw [show a ++ '%' :: 't' :: b ++ natToChars (i + 1) ++ c =
        a ++ '%' :: 't' :: (b ++ natToChars (i + 1) ++ c) by
      simp [List.append_assoc]]
    have e2 := replace2_append '%' 't' (by decide) (natToChars total) a
      (b ++ natToChars (i + 1) ++ c) h2
    rw [e2]
    simp [List.append_assoc]
  · intro a b i total h1 h2
    simp only [pageNumStr]
    rw [replace2_append '%' 'p' (by decide) (natToChars (i + 1)) a b h1]
    apply replace2_eq_self
    have ha : hasPair '%' 't' a = false := hasPair_false_of_left h2
    have hb : hasPair '%' 't' b = false :=
      hasPair_false_cons (hasPair_false_cons (hasPair_false_of_right h2))
    exact hasPair_splice ha hb
      (fun e he => ⟨(natToChars_not_special _ e he).1,
        (natToChars_not_special _ e he).2.1⟩)
      (natToChars_ne_nil _)
  · intro a b i total h1 h2
    simp only [pageNumStr]
    rw [replace2_eq_self '%' 'p' (natToChars (i + 1)) _ h2]
    exact replace2_append '%' 't' (by decide) (natToChars total) a b h1
  · intro format i total h1 h2
    simp only [pageNumStr]
    rw [replace2_eq_self '%' 'p' (natToChars (i + 1)) format h1]
    exact replace2_eq_self '%' 't' (natToChars total) format h2

theorem claim_C10_witness :
    pageNumStr ("%p/%t%p%t".data) 0 12 = ("1/12%p%t".data)
    ∧ pageNumStr ("Page %p%p".data) 0 12 = ("Page 1%p".data)
    ∧ pageNumStr ("%t of %t".data) 4 9 = ("9 of %t".data) :=
  ⟨claim_C10.1 [] ("/".data) ("%p%t".data) 0 12 (by decide) (by decide),
   claim_C10.2.2.1 ("Page ".data) ("%p".data) 0 12 (by decide) (by decide),
   claim_C10.2.2.2.1 [] (" of %t".data) 4 9 (by decide) (by decide)⟩

end LovPdf
